import Mathlib

/-!
Verification of the arithmetic coder in `arithmetic.py` (siddharths2710/CALIC).

The Python source computes with machine floats, but the specification (§1, §4.1)
mandates exact arithmetic semantics ("no rounding error may cause a false
containment result"; the golden test is stated "given identical exact-arithmetic
semantics").  The embedding therefore carries the message interval `[u, v)` as
exact rationals `ℚ`, which is the semantics all the claims are stated against.

Symbols are `Char`, a stream is a `List Char`, a probability dictionary is an
association list `List (Char × ℚ)` (Python dicts keep insertion order and have
no duplicate keys; where a claim needs key uniqueness it appears as a `Nodup`
hypothesis).  A binary code is a `List Bool` (`false` = "0", `true` = "1").

The two `while` loops of the source (`extend_around`, `extend_inside`) do not
terminate on all inputs (e.g. `extend_inside("0", 0.75, 1.0)` appends "1"
forever), so they are embedded with an explicit fuel parameter and return
`none` when the fuel is exhausted; `none` models "still looping after `fuel`
iterations".  Fuel-monotonicity lemmas below show the `some` results do not
depend on the fuel chosen.
-/

namespace CALIC

/-- A probability dictionary, as returned by a model: symbol → probability. -/
abbrev Dist := List (Char × ℚ)

/-- The accumulation loop of `to_rational` (arithmetic.py:117-124):
`n = 0; for b in bs: n = n*2 + int(b)`. -/
def bitsVal (bs : List Bool) : ℕ :=
  bs.foldl (fun n b => 2 * n + if b then 1 else 0) 0

/-- `to_rational(bs)` (arithmetic.py:117-124): numerator and denominator of the
binary fraction `0.bs`. -/
def to_rational (bs : List Bool) : ℕ × ℕ :=
  (bitsVal bs, 2 ^ bs.length)

/-- `binary_interval(bs)` (arithmetic.py:110-115): `(n, n+1, d)` describing the
dyadic interval `[n/d, (n+1)/d)` of the bit string `bs`. -/
def binary_interval (bs : List Bool) : ℕ × ℕ × ℕ :=
  ((to_rational bs).1, (to_rational bs).1 + 1, (to_rational bs).2)

/-- `around(bs, u, v)` (arithmetic.py:128-131):
`n <= u*d and v*d <= m` — the dyadic interval of `bs` surrounds `[u, v)`. -/
def around (bs : List Bool) (u v : ℚ) : Prop :=
  ((binary_interval bs).1 : ℚ) ≤ u * ((binary_interval bs).2.2 : ℚ) ∧
    v * ((binary_interval bs).2.2 : ℚ) ≤ ((binary_interval bs).2.1 : ℚ)

instance (bs : List Bool) (u v : ℚ) : Decidable (around bs u v) := by
  unfold around; exact instDecidableAnd

/-- `inside(bs, u, v)` (arithmetic.py:148-151):
`u*d <= n and m <= v*d` — the dyadic interval of `bs` sits inside `[u, v)`. -/
def inside (bs : List Bool) (u v : ℚ) : Prop :=
  u * ((binary_interval bs).2.2 : ℚ) ≤ ((binary_interval bs).1 : ℚ) ∧
    ((binary_interval bs).2.1 : ℚ) ≤ v * ((binary_interval bs).2.2 : ℚ)

instance (bs : List Bool) (u v : ℚ) : Decidable (inside bs u v) := by
  unfold inside; exact instDecidableAnd

/-- `extend_around(bs, u, v)` (arithmetic.py:133-146): greedily append `0`,
else `1`, while the extension still satisfies `around`; return `bs` once
neither child does.  The `while contained` loop is given explicit fuel;
`none` means the loop was still running after `fuel` iterations. -/
def extend_around : ℕ → List Bool → ℚ → ℚ → Option (List Bool)
  | 0, _, _, _ => none
  | fuel + 1, bs, u, v =>
    if around (bs ++ [false]) u v then extend_around fuel (bs ++ [false]) u v
    else if around (bs ++ [true]) u v then extend_around fuel (bs ++ [true]) u v
    else some bs

/-- `extend_inside(bs, u, v)` (arithmetic.py:153-166): while `inside` fails,
append `1` when `u*d - n > m - v*d` and `0` otherwise.  The `while` loop is
given explicit fuel; `none` means it was still running after `fuel` steps. -/
def extend_inside : ℕ → List Bool → ℚ → ℚ → Option (List Bool)
  | 0, _, _, _ => none
  | fuel + 1, bs, u, v =>
    if inside bs u v then some bs
    else
      if u * ((binary_interval bs).2.2 : ℚ) - ((binary_interval bs).1 : ℚ) >
          ((binary_interval bs).2.1 : ℚ) - v * ((binary_interval bs).2.2 : ℚ) then
        extend_inside fuel (bs ++ [true]) u v
      else
        extend_inside fuel (bs ++ [false]) u v

/-- `p[x]` lookup in a probability dictionary. -/
def lookupD (p : Dist) (a : Char) : ℚ :=
  ((p.find? fun q => q.1 == a).map Prod.snd).getD 0

/-- `sorted(p)` (arithmetic.py:102): the keys of `p` in ascending order. -/
def sortedKeys (p : Dist) : List Char :=
  (p.map Prod.fst).insertionSort (· ≤ ·)

/-- The `for x in A` loop of `cdf_interval` (arithmetic.py:103-106):
`F_lo, F_hi = F_hi, F_hi + p[x]; if x == a: break`. -/
def cdfGo (p : Dist) (a : Char) : List Char → ℚ × ℚ → ℚ × ℚ
  | [], F => F
  | x :: A, F =>
    if x = a then (F.2, F.2 + lookupD p x)
    else cdfGo p a A (F.2, F.2 + lookupD p x)

/-- `cdf_interval(p, a)` (arithmetic.py:93-108): cumulative-probability
sub-interval `[F_lo, F_hi)` of symbol `a` under distribution `p`. -/
def cdf_interval (p : Dist) (a : Char) : ℚ × ℚ :=
  cdfGo p a (sortedKeys p) (0, 0)

/-- `counts[x] += 1` on an association list (the increment in the history
replay loop of `dirichlet`, arithmetic.py:82-83). -/
def incr (counts : List (Char × ℕ)) (x : Char) : List (Char × ℕ) :=
  counts.map fun q => if q.1 = x then (q.1, q.2 + 1) else q

/-- `dirichlet(m)` (arithmetic.py:69-88): the adaptive model.  For a history
`xs`, copy the prior counts `m`, add 1 per occurrence in `xs`, and return
`count/total` per symbol. -/
def dirichlet (m : List (Char × ℕ)) : List Char → Dist := fun xs =>
  let counts := xs.foldl incr m
  let total : ℕ := (counts.map Prod.snd).sum
  counts.map fun q => (q.1, (q.2 : ℚ) / (total : ℚ))

/-- The `for x in stream` loop of `encode` (arithmetic.py:46-58), carrying
`(u, v, xs, bs, p)` exactly as the source does.  `fuel` is handed to each
`extend_around` call; `none` propagates a non-terminating extension. -/
def encodeGo (fuel : ℕ) (G : List Char → Dist) :
    List Char → ℚ → ℚ → List Char → List Bool → Dist →
    Option (ℚ × ℚ × List Char × List Bool)
  | [], u, v, xs, bs, _ => some (u, v, xs, bs)
  | x :: stream, u, v, xs, bs, p =>
    let F := cdf_interval p x
    let u' := u + (v - u) * F.1
    let v' := u + (v - u) * F.2
    match extend_around fuel bs u' v' with
    | none => none
    | some bs' => encodeGo fuel G stream u' v' (xs ++ [x]) bs' (G (xs ++ [x]))

/-- `encode(G, stream)` (arithmetic.py:34-64): run the per-symbol loop from
`u=0, v=1, xs="", bs=""`, then finalize with
`extend_inside(bs, u + (v-u)/2, v)`. -/
def encode (fuel : ℕ) (G : List Char → Dist) (stream : List Char) :
    Option (List Bool) :=
  match encodeGo fuel G stream 0 1 [] [] (G []) with
  | none => none
  | some (u, v, _, bs) => extend_inside fuel bs (u + (v - u) / 2) v

/-! ### Basic facts about the dyadic interval of a bit string -/

lemma binary_interval_eq (bs : List Bool) :
    binary_interval bs = (bitsVal bs, bitsVal bs + 1, 2 ^ bs.length) := rfl

lemma bitsVal_append (bs : List Bool) (b : Bool) :
    bitsVal (bs ++ [b]) = 2 * bitsVal bs + (if b then 1 else 0) := by
  simp [bitsVal, List.foldl_append]

lemma bitsVal_append_false (bs : List Bool) :
    bitsVal (bs ++ [false]) = 2 * bitsVal bs := by
  simp [bitsVal_append]

lemma bitsVal_append_true (bs : List Bool) :
    bitsVal (bs ++ [true]) = 2 * bitsVal bs + 1 := by
  simp [bitsVal_append]

lemma around_iff (bs : List Bool) (u v : ℚ) :
    around bs u v ↔
      ((bitsVal bs : ℚ) ≤ u * (2 : ℚ) ^ bs.length ∧
        v * (2 : ℚ) ^ bs.length ≤ (bitsVal bs : ℚ) + 1) := by
  unfold around
  rw [binary_interval_eq]
  push_cast
  exact Iff.rfl

lemma inside_iff (bs : List Bool) (u v : ℚ) :
    inside bs u v ↔
      (u * (2 : ℚ) ^ bs.length ≤ (bitsVal bs : ℚ) ∧
        (bitsVal bs : ℚ) + 1 ≤ v * (2 : ℚ) ^ bs.length) := by
  unfold inside
  rw [binary_interval_eq]
  push_cast
  exact Iff.rfl

lemma two_pow_pos (L : ℕ) : (0 : ℚ) < 2 ^ L := by positivity

lemma length_append_bit (bs : List Bool) (b : Bool) :
    (bs ++ [b]).length = bs.length + 1 := by simp

/-- Narrowing the target interval keeps `around`. -/
lemma around_shrink {bs : List Bool} {u v u' v' : ℚ}
    (h : around bs u v) (hu : u ≤ u') (hv : v' ≤ v) : around bs u' v' := by
  rw [around_iff] at h ⊢
  constructor
  · exact h.1.trans (mul_le_mul_of_nonneg_right hu (two_pow_pos bs.length).le)
  · exact (mul_le_mul_of_nonneg_right hv (two_pow_pos bs.length).le).trans h.2

/-- Dropping the last bit keeps `around` (larger dyadic intervals still
surround the target). -/
lemma around_of_append_bit {bs : List Bool} {b : Bool} {u v : ℚ}
    (h : around (bs ++ [b]) u v) : around bs u v := by
  rw [around_iff] at h ⊢
  cases b with
  | false =>
    rw [bitsVal_append_false, length_append_bit] at h
    obtain ⟨h₁, h₂⟩ := h
    push_cast at h₁ h₂
    rw [pow_succ] at h₁ h₂
    constructor <;> nlinarith [two_pow_pos bs.length]
  | true =>
    rw [bitsVal_append_true, length_append_bit] at h
    obtain ⟨h₁, h₂⟩ := h
    push_cast at h₁ h₂
    rw [pow_succ] at h₁ h₂
    constructor <;> nlinarith [two_pow_pos bs.length]

/-- `around` holds for every earlier state of a bit string that satisfies it. -/
lemma around_of_append {u v : ℚ} :
    ∀ (t bs : List Bool), around (bs ++ t) u v → around bs u v := by
  intro t
  induction t with
  | nil => intro bs h; simpa using h
  | cons b t ih =>
    intro bs h
    have : around ((bs ++ [b]) ++ t) u v := by simpa using h
    exact around_of_append_bit (ih (bs ++ [b]) this)

/-- When `u < v`, at most one of the two one-bit extensions can surround
`[u, v)`. -/
lemma not_around_both {bs : List Bool} {u v : ℚ} (huv : u < v)
    (h0 : around (bs ++ [false]) u v) (h1 : around (bs ++ [true]) u v) : False := by
  rw [around_iff, bitsVal_append_false, length_append_bit] at h0
  rw [around_iff, bitsVal_append_true, length_append_bit] at h1
  obtain ⟨-, h02⟩ := h0
  obtain ⟨h11, -⟩ := h1
  push_cast at h02 h11
  rw [pow_succ] at h02 h11
  have hd := two_pow_pos bs.length
  nlinarith

/-! ### `extend_around`: unfolding, monotonicity, and behaviour -/

lemma extend_around_succ (f : ℕ) (bs : List Bool) (u v : ℚ) :
    extend_around (f + 1) bs u v =
      if around (bs ++ [false]) u v then extend_around f (bs ++ [false]) u v
      else if around (bs ++ [true]) u v then extend_around f (bs ++ [true]) u v
      else some bs := rfl

/-- `extend_around` only ever appends bits. -/
lemma extend_around_extends :
    ∀ (f : ℕ) (bs : List Bool) (u v : ℚ) (r : List Bool),
      extend_around f bs u v = some r → bs <+: r := by
  intro f
  induction f with
  | zero => intro bs u v r h; cases h
  | succ f ih =>
    intro bs u v r h
    rw [extend_around_succ] at h
    by_cases h0 : around (bs ++ [false]) u v
    · rw [if_pos h0] at h
      exact (List.prefix_append bs [false]).trans (ih _ u v r h)
    · rw [if_neg h0] at h
      by_cases h1 : around (bs ++ [true]) u v
      · rw [if_pos h1] at h
        exact (List.prefix_append bs [true]).trans (ih _ u v r h)
      · rw [if_neg h1] at h
        cases h
        exact List.prefix_rfl

/-- If the input already surrounds the target, so does the output. -/
lemma extend_around_around :
    ∀ (f : ℕ) (bs : List Bool) (u v : ℚ) (r : List Bool),
      around bs u v → extend_around f bs u v = some r → around r u v := by
  intro f
  induction f with
  | zero => intro bs u v r _ h; cases h
  | succ f ih =>
    intro bs u v r hbs h
    rw [extend_around_succ] at h
    by_cases h0 : around (bs ++ [false]) u v
    · rw [if_pos h0] at h; exact ih _ u v r h0 h
    · rw [if_neg h0] at h
      by_cases h1 : around (bs ++ [true]) u v
      · rw [if_pos h1] at h; exact ih _ u v r h1 h
      · rw [if_neg h1] at h; cases h; exact hbs

/-- Every `around`-satisfying extension of the input is an initial segment of
the greedy result: the result is the longest such extension. -/
lemma extend_around_longest :
    ∀ (f : ℕ) (bs : List Bool) (u v : ℚ) (r : List Bool), u < v →
      extend_around f bs u v = some r →
      ∀ ext, bs <+: ext → around ext u v → ext <+: r := by
  intro f
  induction f with
  | zero => intro bs u v r _ h; cases h
  | succ f ih =>
    intro bs u v r huv h ext hpre hext
    obtain ⟨t, ht⟩ := hpre
    rw [extend_around_succ] at h
    by_cases h0 : around (bs ++ [false]) u v
    · rw [if_pos h0] at h
      cases t with
      | nil =>
        rw [List.append_nil] at ht
        subst ht
        exact (List.prefix_append bs [false]).trans (extend_around_extends f _ u v r h)
      | cons b t' =>
        subst ht
        have hb : around (bs ++ [b]) u v := by
          refine around_of_append t' (bs ++ [b]) ?_
          simpa using hext
        cases b with
        | false => exact ih (bs ++ [false]) u v r huv h (bs ++ false :: t') ⟨t', by simp⟩ hext
        | true => exact (not_around_both huv h0 hb).elim
    · rw [if_neg h0] at h
      by_cases h1 : around (bs ++ [true]) u v
      · rw [if_pos h1] at h
        cases t with
        | nil =>
          rw [List.append_nil] at ht
          subst ht
          exact (List.prefix_append bs [true]).trans (extend_around_extends f _ u v r h)
        | cons b t' =>
          subst ht
          have hb : around (bs ++ [b]) u v := by
            refine around_of_append t' (bs ++ [b]) ?_
            simpa using hext
          cases b with
          | false => exact absurd hb h0
          | true => exact ih (bs ++ [true]) u v r huv h (bs ++ true :: t') ⟨t', by simp⟩ hext
      · rw [if_neg h1] at h
        cases h
        cases t with
        | nil => rw [List.append_nil] at ht; subst ht; exact List.prefix_rfl
        | cons b t' =>
          subst ht
          have hb : around (bs ++ [b]) u v := by
            refine around_of_append t' (bs ++ [b]) ?_
            simpa using hext
          cases b with
          | false => exact absurd hb h0
          | true => exact absurd hb h1

/-- With `u < v`, enough fuel makes `extend_around` terminate. -/
lemma extend_around_term :
    ∀ (f : ℕ) (bs : List Bool) (u v : ℚ), u < v →
      1 < 2 ^ f * (v - u) * (2 : ℚ) ^ bs.length →
      ∃ r, extend_around (f + 1) bs u v = some r := by
  intro f
  induction f with
  | zero =>
    intro bs u v huv hbig
    rw [pow_zero, one_mul] at hbig
    have h0 : ¬ around (bs ++ [false]) u v := by
      rw [around_iff, bitsVal_append, length_append_bit]
      push_cast
      rw [pow_succ]
      intro ⟨ha, hb⟩
      nlinarith [two_pow_pos bs.length]
    have h1 : ¬ around (bs ++ [true]) u v := by
      rw [around_iff, bitsVal_append, length_append_bit]
      push_cast
      rw [pow_succ]
      intro ⟨ha, hb⟩
      nlinarith [two_pow_pos bs.length]
    exact ⟨bs, by rw [extend_around_succ, if_neg h0, if_neg h1]⟩
  | succ f ih =>
    intro bs u v huv hbig
    by_cases h0 : around (bs ++ [false]) u v
    · have hb : 1 < 2 ^ f * (v - u) * (2 : ℚ) ^ (bs ++ [false]).length := by
        rw [length_append_bit, pow_succ]
        calc (1 : ℚ) < 2 ^ (f + 1) * (v - u) * 2 ^ bs.length := hbig
        _ = 2 ^ f * (v - u) * (2 ^ bs.length * 2) := by ring
      obtain ⟨r, hr⟩ := ih (bs ++ [false]) u v huv hb
      exact ⟨r, by rw [extend_around_succ, if_pos h0]; exact hr⟩
    · by_cases h1 : around (bs ++ [true]) u v
      · have hb : 1 < 2 ^ f * (v - u) * (2 : ℚ) ^ (bs ++ [true]).length := by
          rw [length_append_bit, pow_succ]
          calc (1 : ℚ) < 2 ^ (f + 1) * (v - u) * 2 ^ bs.length := hbig
          _ = 2 ^ f * (v - u) * (2 ^ bs.length * 2) := by ring
        obtain ⟨r, hr⟩ := ih (bs ++ [true]) u v huv hb
        exact ⟨r, by rw [extend_around_succ, if_neg h0, if_pos h1]; exact hr⟩
      · exact ⟨bs, by rw [extend_around_succ, if_neg h0, if_neg h1]⟩

/-- Fuel monotonicity: a `some` answer is stable under more fuel. -/
lemma extend_around_mono :
    ∀ (f f' : ℕ) (bs : List Bool) (u v : ℚ) (r : List Bool), f ≤ f' →
      extend_around f bs u v = some r → extend_around f' bs u v = some r := by
  intro f
  induction f with
  | zero => intro f' bs u v r _ h; cases h
  | succ f ih =>
    intro f' bs u v r hle h
    obtain ⟨f'', rfl⟩ : ∃ f'', f' = f'' + 1 :=
      ⟨f' - 1, by omega⟩
    have hff : f ≤ f'' := by omega
    rw [extend_around_succ] at h ⊢
    by_cases h0 : around (bs ++ [false]) u v
    · rw [if_pos h0] at h ⊢; exact ih f'' _ u v r hff h
    · rw [if_neg h0] at h ⊢
      by_cases h1 : around (bs ++ [true]) u v
      · rw [if_pos h1] at h ⊢; exact ih f'' _ u v r hff h
      · rw [if_neg h1] at h ⊢; exact h

/-! ### `extend_inside`: unfolding, monotonicity, termination, divergence -/

lemma extend_inside_succ (f : ℕ) (bs : List Bool) (u v : ℚ) :
    extend_inside (f + 1) bs u v =
      if inside bs u v then some bs
      else
        if u * ((binary_interval bs).2.2 : ℚ) - ((binary_interval bs).1 : ℚ) >
            ((binary_interval bs).2.1 : ℚ) - v * ((binary_interval bs).2.2 : ℚ) then
          extend_inside f (bs ++ [true]) u v
        else
          extend_inside f (bs ++ [false]) u v := rfl

lemma extend_inside_step_one (f : ℕ) (bs : List Bool) (u v : ℚ)
    (h : ¬ inside bs u v)
    (hc : (bitsVal bs : ℚ) + 1 - v * 2 ^ bs.length < u * 2 ^ bs.length - bitsVal bs) :
    extend_inside (f + 1) bs u v = extend_inside f (bs ++ [true]) u v := by
  have hc' : u * ((binary_interval bs).2.2 : ℚ) - ((binary_interval bs).1 : ℚ) >
      ((binary_interval bs).2.1 : ℚ) - v * ((binary_interval bs).2.2 : ℚ) := by
    rw [binary_interval_eq]
    push_cast
    linarith
  rw [extend_inside_succ, if_neg h, if_pos hc']

lemma extend_inside_step_zero (f : ℕ) (bs : List Bool) (u v : ℚ)
    (h : ¬ inside bs u v)
    (hc : u * (2 : ℚ) ^ bs.length - bitsVal bs ≤ (bitsVal bs : ℚ) + 1 - v * 2 ^ bs.length) :
    extend_inside (f + 1) bs u v = extend_inside f (bs ++ [false]) u v := by
  have hc' : ¬ (u * ((binary_interval bs).2.2 : ℚ) - ((binary_interval bs).1 : ℚ) >
      ((binary_interval bs).2.1 : ℚ) - v * ((binary_interval bs).2.2 : ℚ)) := by
    rw [binary_interval_eq]
    push_cast
    linarith
  rw [extend_inside_succ, if_neg h, if_neg hc']

/-- `extend_inside` only ever appends bits. -/
lemma extend_inside_extends :
    ∀ (f : ℕ) (bs : List Bool) (u v : ℚ) (r : List Bool),
      extend_inside f bs u v = some r → bs <+: r := by
  intro f
  induction f with
  | zero => intro bs u v r h; cases h
  | succ f ih =>
    intro bs u v r h
    rw [extend_inside_succ] at h
    by_cases hin : inside bs u v
    · rw [if_pos hin] at h; cases h; exact List.prefix_rfl
    · rw [if_neg hin] at h
      by_cases hc : u * ((binary_interval bs).2.2 : ℚ) - ((binary_interval bs).1 : ℚ) >
          ((binary_interval bs).2.1 : ℚ) - v * ((binary_interval bs).2.2 : ℚ)
      · rw [if_pos hc] at h
        exact (List.prefix_append bs [true]).trans (ih _ u v r h)
      · rw [if_neg hc] at h
        exact (List.prefix_append bs [false]).trans (ih _ u v r h)

/-- A `some` answer of `extend_inside` satisfies `inside` (the loop only exits
when its guard holds). -/
lemma extend_inside_inside :
    ∀ (f : ℕ) (bs : List Bool) (u v : ℚ) (r : List Bool),
      extend_inside f bs u v = some r → inside r u v := by
  intro f
  induction f with
  | zero => intro bs u v r h; cases h
  | succ f ih =>
    intro bs u v r h
    rw [extend_inside_succ] at h
    by_cases hin : inside bs u v
    · rw [if_pos hin] at h; cases h; exact hin
    · rw [if_neg hin] at h
      by_cases hc : u * ((binary_interval bs).2.2 : ℚ) - ((binary_interval bs).1 : ℚ) >
          ((binary_interval bs).2.1 : ℚ) - v * ((binary_interval bs).2.2 : ℚ)
      · rw [if_pos hc] at h; exact ih _ u v r h
      · rw [if_neg hc] at h; exact ih _ u v r h

/-- Fuel monotonicity for `extend_inside`. -/
lemma extend_inside_mono :
    ∀ (f f' : ℕ) (bs : List Bool) (u v : ℚ) (r : List Bool), f ≤ f' →
      extend_inside f bs u v = some r → extend_inside f' bs u v = some r := by
  intro f
  induction f with
  | zero => intro f' bs u v r _ h; cases h
  | succ f ih =>
    intro f' bs u v r hle h
    obtain ⟨f'', rfl⟩ : ∃ f'', f' = f'' + 1 := ⟨f' - 1, by omega⟩
    have hff : f ≤ f'' := by omega
    rw [extend_inside_succ] at h ⊢
    by_cases hin : inside bs u v
    · rw [if_pos hin] at h ⊢; exact h
    · rw [if_neg hin] at h ⊢
      by_cases hc : u * ((binary_interval bs).2.2 : ℚ) - ((binary_interval bs).1 : ℚ) >
          ((binary_interval bs).2.1 : ℚ) - v * ((binary_interval bs).2.2 : ℚ)
      · rw [if_pos hc] at h ⊢; exact ih f'' _ u v r hff h
      · rw [if_neg hc] at h ⊢; exact ih f'' _ u v r hff h

/-- Once the dyadic upper end has passed `v`, the loop keeps appending `1`s and
halts as soon as the lower gap is closed. -/
lemma extend_inside_term_one :
    ∀ (k : ℕ) (bs : List Bool) (u v : ℚ),
      (bitsVal bs : ℚ) + 1 ≤ v * 2 ^ bs.length →
      u * (2 : ℚ) ^ bs.length < (bitsVal bs : ℚ) + 1 →
      1 < 2 ^ k * ((bitsVal bs : ℚ) + 1 - u * 2 ^ bs.length) →
      ∃ r, extend_inside (k + 1) bs u v = some r := by
  intro k
  induction k with
  | zero =>
    intro bs u v hH hL hK
    rw [pow_zero, one_mul] at hK
    have hin : inside bs u v := by
      rw [inside_iff]
      exact ⟨by linarith, hH⟩
    exact ⟨bs, by rw [extend_inside_succ, if_pos hin]⟩
  | succ k ih =>
    intro bs u v hH hL hK
    by_cases hin : inside bs u v
    · exact ⟨bs, by rw [extend_inside_succ, if_pos hin]⟩
    · have hgl : (bitsVal bs : ℚ) < u * 2 ^ bs.length := by
        rw [inside_iff] at hin
        by_contra hle
        exact hin ⟨by linarith, hH⟩
      have hstep := extend_inside_step_one (k + 1) bs u v hin (by linarith)
      have hH' : (bitsVal (bs ++ [true]) : ℚ) + 1 ≤ v * 2 ^ (bs ++ [true]).length := by
        rw [bitsVal_append_true, length_append_bit]
        push_cast
        rw [pow_succ]
        linarith
      have hL' : u * (2 : ℚ) ^ (bs ++ [true]).length < (bitsVal (bs ++ [true]) : ℚ) + 1 := by
        rw [bitsVal_append_true, length_append_bit]
        push_cast
        rw [pow_succ]
        linarith
      have hK' : 1 < 2 ^ k * ((bitsVal (bs ++ [true]) : ℚ) + 1 -
          u * 2 ^ (bs ++ [true]).length) := by
        rw [bitsVal_append_true, length_append_bit]
        push_cast
        rw [pow_succ]
        calc (1 : ℚ) < 2 ^ (k + 1) * ((bitsVal bs : ℚ) + 1 - u * 2 ^ bs.length) := hK
        _ = 2 ^ k * (2 * (bitsVal bs : ℚ) + 1 + 1 - u * (2 ^ bs.length * 2)) := by ring
      obtain ⟨r, hr⟩ := ih (bs ++ [true]) u v hH' hL' hK'
      exact ⟨r, by rw [hstep]; exact hr⟩

/-- Once the dyadic lower end has passed `u`, the loop keeps appending `0`s and
halts as soon as the upper gap is closed. -/
lemma extend_inside_term_zero :
    ∀ (k : ℕ) (bs : List Bool) (u v : ℚ),
      u * (2 : ℚ) ^ bs.length ≤ (bitsVal bs : ℚ) →
      (bitsVal bs : ℚ) < v * 2 ^ bs.length →
      1 < 2 ^ k * (v * 2 ^ bs.length - (bitsVal bs : ℚ)) →
      ∃ r, extend_inside (k + 1) bs u v = some r := by
  intro k
  induction k with
  | zero =>
    intro bs u v hH hL hK
    rw [pow_zero, one_mul] at hK
    have hin : inside bs u v := by
      rw [inside_iff]
      exact ⟨hH, by linarith⟩
    exact ⟨bs, by rw [extend_inside_succ, if_pos hin]⟩
  | succ k ih =>
    intro bs u v hH hL hK
    by_cases hin : inside bs u v
    · exact ⟨bs, by rw [extend_inside_succ, if_pos hin]⟩
    · have hgh : v * (2 : ℚ) ^ bs.length < (bitsVal bs : ℚ) + 1 := by
        rw [inside_iff] at hin
        by_contra hle
        exact hin ⟨hH, by linarith⟩
      have hstep := extend_inside_step_zero (k + 1) bs u v hin (by linarith)
      have hH' : u * (2 : ℚ) ^ (bs ++ [false]).length ≤ (bitsVal (bs ++ [false]) : ℚ) := by
        rw [bitsVal_append_false, length_append_bit]
        push_cast
        rw [pow_succ]
        linarith
      have hL' : (bitsVal (bs ++ [false]) : ℚ) < v * 2 ^ (bs ++ [false]).length := by
        rw [bitsVal_append_false, length_append_bit]
        push_cast
        rw [pow_succ]
        linarith
      have hK' : 1 < 2 ^ k * (v * (2 : ℚ) ^ (bs ++ [false]).length -
          (bitsVal (bs ++ [false]) : ℚ)) := by
        rw [bitsVal_append_false, length_append_bit]
        push_cast
        rw [pow_succ]
        calc (1 : ℚ) < 2 ^ (k + 1) * (v * 2 ^ bs.length - (bitsVal bs : ℚ)) := hK
        _ = 2 ^ k * (v * (2 ^ bs.length * 2) - 2 * (bitsVal bs : ℚ)) := by ring
      obtain ⟨r, hr⟩ := ih (bs ++ [false]) u v hH' hL' hK'
      exact ⟨r, by rw [hstep]; exact hr⟩

/-- An Archimedean helper: positive rationals are beaten by powers of two. -/
lemma one_lt_pow_mul {x : ℚ} (hx : 0 < x) : ∃ k : ℕ, 1 < 2 ^ k * x := by
  obtain ⟨k, hk⟩ := pow_unbounded_of_one_lt x⁻¹ (by norm_num : (1 : ℚ) < 2)
  refine ⟨k, ?_⟩
  have := mul_lt_mul_of_pos_right hk hx
  rwa [inv_mul_cancel₀ hx.ne'] at this

/-- Termination of `extend_inside` when `v - u > 0` and the dyadic interval of
`bs` overlaps the target interval. -/
lemma extend_inside_term :
    ∀ (N : ℕ) (bs : List Bool) (u v : ℚ), 0 < v - u →
      u * (2 : ℚ) ^ bs.length < (bitsVal bs : ℚ) + 1 →
      (bitsVal bs : ℚ) < v * 2 ^ bs.length →
      1 ≤ (v - u) * 2 ^ bs.length * 2 ^ N →
      ∃ f r, extend_inside f bs u v = some r := by
  intro N
  induction N with
  | zero =>
    intro bs u v huv hL hH hbig
    rw [pow_zero, mul_one] at hbig
    by_cases hin : inside bs u v
    · exact ⟨1, bs, by rw [extend_inside_succ, if_pos hin]⟩
    · by_cases hgl : u * (2 : ℚ) ^ bs.length ≤ (bitsVal bs : ℚ)
      · obtain ⟨k, hk⟩ := one_lt_pow_mul (by linarith :
          (0 : ℚ) < v * 2 ^ bs.length - (bitsVal bs : ℚ))
        obtain ⟨r, hr⟩ := extend_inside_term_zero k bs u v hgl hH hk
        exact ⟨k + 1, r, hr⟩
      · push_neg at hgl
        have hH2 : (bitsVal bs : ℚ) + 1 ≤ v * 2 ^ bs.length := by nlinarith
        obtain ⟨k, hk⟩ := one_lt_pow_mul (by linarith :
          (0 : ℚ) < (bitsVal bs : ℚ) + 1 - u * 2 ^ bs.length)
        obtain ⟨r, hr⟩ := extend_inside_term_one k bs u v hH2 hL hk
        exact ⟨k + 1, r, hr⟩
  | succ N ih =>
    intro bs u v huv hL hH hbig
    by_cases hin : inside bs u v
    · exact ⟨1, bs, by rw [extend_inside_succ, if_pos hin]⟩
    · have hud : u * (2 : ℚ) ^ bs.length < v * 2 ^ bs.length :=
        mul_lt_mul_of_pos_right (by linarith) (two_pow_pos bs.length)
      by_cases hc : (bitsVal bs : ℚ) + 1 - v * 2 ^ bs.length <
          u * 2 ^ bs.length - bitsVal bs
      · have hstep := fun f => extend_inside_step_one f bs u v hin hc
        have hL' : u * (2 : ℚ) ^ (bs ++ [true]).length <
            (bitsVal (bs ++ [true]) : ℚ) + 1 := by
          rw [bitsVal_append_true, length_append_bit]
          push_cast
          rw [pow_succ]
          linarith
        have hH' : (bitsVal (bs ++ [true]) : ℚ) < v * 2 ^ (bs ++ [true]).length := by
          rw [bitsVal_append_true, length_append_bit]
          push_cast
          rw [pow_succ]
          linarith
        have hbig' : 1 ≤ (v - u) * (2 : ℚ) ^ (bs ++ [true]).length * 2 ^ N := by
          rw [length_append_bit, pow_succ]
          calc (1 : ℚ) ≤ (v - u) * 2 ^ bs.length * 2 ^ (N + 1) := hbig
          _ = (v - u) * (2 ^ bs.length * 2) * 2 ^ N := by ring
        obtain ⟨f, r, hr⟩ := ih (bs ++ [true]) u v huv hL' hH' hbig'
        exact ⟨f + 1, r, by rw [hstep f]; exact hr⟩
      · push_neg at hc
        have hstep := fun f => extend_inside_step_zero f bs u v hin hc
        have hL' : u * (2 : ℚ) ^ (bs ++ [false]).length <
            (bitsVal (bs ++ [false]) : ℚ) + 1 := by
          rw [bitsVal_append_false, length_append_bit]
          push_cast
          rw [pow_succ]
          linarith
        have hH' : (bitsVal (bs ++ [false]) : ℚ) < v * 2 ^ (bs ++ [false]).length := by
          rw [bitsVal_append_false, length_append_bit]
          push_cast
          rw [pow_succ]
          linarith
        have hbig' : 1 ≤ (v - u) * (2 : ℚ) ^ (bs ++ [false]).length * 2 ^ N := by
          rw [length_append_bit, pow_succ]
          calc (1 : ℚ) ≤ (v - u) * 2 ^ bs.length * 2 ^ (N + 1) := hbig
          _ = (v - u) * (2 ^ bs.length * 2) * 2 ^ N := by ring
        obtain ⟨f, r, hr⟩ := ih (bs ++ [false]) u v huv hL' hH' hbig'
        exact ⟨f + 1, r, by rw [hstep f]; exact hr⟩

/-- Bit value of `0` followed by `k` ones. -/
lemma bitsVal_false_replicate_true (k : ℕ) :
    bitsVal (false :: List.replicate k true) = 2 ^ k - 1 := by
  have key : ∀ (k : ℕ) (n₀ : ℕ),
      List.foldl (fun n b => 2 * n + if b then 1 else 0) n₀ (List.replicate k true) =
        (n₀ + 1) * 2 ^ k - 1 := by
    intro k
    induction k with
    | zero => intro n₀; simp
    | succ k ih =>
      intro n₀
      rw [List.replicate_succ, List.foldl_cons]
      simp only [if_pos]
      rw [ih (2 * n₀ + 1)]
      have h2 : (2 * n₀ + 1 + 1) * 2 ^ k = (n₀ + 1) * 2 ^ (k + 1) := by ring
      rw [h2]
  unfold bitsVal
  rw [List.foldl_cons]
  simpa using key k 0

/-- Divergence witness for `extend_inside`: starting from the bit string "0"
with target `[3/4, 1)`, every fuel bound is exhausted (the Python loop would
append `1` forever). -/
lemma extend_inside_diverges :
    ∀ (f k : ℕ),
      extend_inside f (false :: List.replicate k true) (3 / 4 : ℚ) 1 = none := by
  intro f
  induction f with
  | zero => intro k; rfl
  | succ f ih =>
    intro k
    have hlen : (false :: List.replicate k true).length = k + 1 := by simp
    have hval : ((bitsVal (false :: List.replicate k true) : ℕ) : ℚ) =
        (2 : ℚ) ^ k - 1 := by
      rw [bitsVal_false_replicate_true]
      push_cast [Nat.one_le_two_pow]
      ring
    have hpow : (0 : ℚ) < 2 ^ k := two_pow_pos k
    have hin : ¬ inside (false :: List.replicate k true) (3 / 4 : ℚ) 1 := by
      rw [inside_iff, hlen, hval]
      rintro ⟨h1, -⟩
      rw [pow_succ] at h1
      nlinarith
    have hc : (bitsVal (false :: List.replicate k true) : ℚ) + 1 -
          1 * 2 ^ (false :: List.replicate k true).length <
        (3 / 4 : ℚ) * 2 ^ (false :: List.replicate k true).length -
          bitsVal (false :: List.replicate k true) := by
      rw [hlen, hval, pow_succ]
      nlinarith
    have hstep := extend_inside_step_one f (false :: List.replicate k true)
      (3 / 4 : ℚ) 1 hin hc
    rw [hstep]
    have happ : (false :: List.replicate k true) ++ [true] =
        false :: List.replicate (k + 1) true := by
      rw [List.replicate_succ']
      simp
    rw [happ]
    exact ih (k + 1)

/-! ### Probability dictionaries: lookup, sorted keys, cumulative intervals -/

lemma cdfGo_nil_eq (p : Dist) (a : Char) (F : ℚ × ℚ) : cdfGo p a [] F = F := rfl

lemma cdfGo_cons_eq (p : Dist) (a x : Char) (A : List Char) (F : ℚ × ℚ) :
    cdfGo p a (x :: A) F =
      if x = a then (F.2, F.2 + lookupD p x)
      else cdfGo p a A (F.2, F.2 + lookupD p x) := rfl

lemma lookupD_cons (q : Char × ℚ) (p : Dist) (a : Char) :
    lookupD (q :: p) a = if q.1 = a then q.2 else lookupD p a := by
  by_cases h : q.1 = a
  · simp [lookupD, List.find?_cons, h]
  · simp [lookupD, List.find?_cons, h]

lemma lookupD_pos :
    ∀ (p : Dist) (a : Char), (∀ q ∈ p, 0 < q.2) → a ∈ p.map Prod.fst →
      0 < lookupD p a := by
  intro p
  induction p with
  | nil => intro a _ ha; simp at ha
  | cons q p ih =>
    intro a hpos ha
    rw [lookupD_cons]
    by_cases h : q.1 = a
    · rw [if_pos h]; exact hpos q (by simp)
    · rw [if_neg h]
      rcases List.mem_map.mp ha with ⟨q', hq', hfst⟩
      rcases List.mem_cons.mp hq' with rfl | hq'mem
      · exact absurd hfst h
      · exact ih a (fun r hr => hpos r (List.mem_cons_of_mem q hr))
          (List.mem_map.mpr ⟨q', hq'mem, hfst⟩)

/-- On duplicate-free keys, looking every key up recovers the values. -/
lemma map_lookupD_of_nodup :
    ∀ p : Dist, (p.map Prod.fst).Nodup →
      (p.map Prod.fst).map (lookupD p) = p.map Prod.snd := by
  intro p
  induction p with
  | nil => intro _; rfl
  | cons q p ih =>
    intro hnd
    rw [List.map_cons, List.map_cons, List.map_cons]
    rw [List.map_cons, List.nodup_cons] at hnd
    obtain ⟨hq, hnd'⟩ := hnd
    congr 1
    · rw [lookupD_cons, if_pos rfl]
    · have : ∀ b ∈ p.map Prod.fst, lookupD (q :: p) b = lookupD p b := by
        intro b hb
        rw [lookupD_cons, if_neg]
        intro hqb
        exact hq (hqb ▸ hb)
      rw [List.map_congr_left this, ih hnd']

lemma sortedKeys_perm (p : Dist) : (sortedKeys p).Perm (p.map Prod.fst) :=
  List.perm_insertionSort _ _

lemma mem_sortedKeys {p : Dist} {a : Char} :
    a ∈ sortedKeys p ↔ a ∈ p.map Prod.fst :=
  (sortedKeys_perm p).mem_iff

lemma sortedKeys_nodup {p : Dist} (h : (p.map Prod.fst).Nodup) :
    (sortedKeys p).Nodup :=
  (sortedKeys_perm p).nodup_iff.mpr h

lemma sum_lookupD_sortedKeys {p : Dist} (h : (p.map Prod.fst).Nodup) :
    ((sortedKeys p).map (lookupD p)).sum = (p.map Prod.snd).sum := by
  have hperm : ((sortedKeys p).map (lookupD p)).Perm ((p.map Prod.fst).map (lookupD p)) :=
    (sortedKeys_perm p).map _
  rw [hperm.sum_eq, map_lookupD_of_nodup p h]

/-- Running the scan over a key list containing the requested symbol, starting
from accumulator `acc`: the returned interval is non-degenerate and contained
in `[acc.2, acc.2 + Σ probabilities]`. -/
lemma cdfGo_bounds {p : Dist} {a : Char} :
    ∀ (A : List Char) (acc : ℚ × ℚ), (∀ x ∈ A, 0 ≤ lookupD p x) → a ∈ A →
      0 < lookupD p a →
      acc.2 ≤ (cdfGo p a A acc).1 ∧ (cdfGo p a A acc).1 < (cdfGo p a A acc).2 ∧
        (cdfGo p a A acc).2 ≤ acc.2 + (A.map (lookupD p)).sum := by
  intro A
  induction A with
  | nil => intro acc _ ha; simp at ha
  | cons x A ih =>
    intro acc hnn ha hapos
    have hx0 : 0 ≤ lookupD p x := hnn x (by simp)
    have hsum0 : 0 ≤ (A.map (lookupD p)).sum :=
      List.sum_nonneg (by
        intro y hy
        rcases List.mem_map.mp hy with ⟨z, hz, rfl⟩
        exact hnn z (List.mem_cons_of_mem x hz))
    by_cases hxa : x = a
    · rw [cdfGo_cons_eq, if_pos hxa]
      have hxpos : 0 < lookupD p x := by rw [hxa]; exact hapos
      refine ⟨le_refl _, ?_, ?_⟩
      · show acc.2 < acc.2 + lookupD p x
        linarith
      · show acc.2 + lookupD p x ≤ acc.2 + (List.map (lookupD p) (x :: A)).sum
        rw [List.map_cons, List.sum_cons]
        linarith
    · rw [cdfGo_cons_eq, if_neg hxa]
      have ha' : a ∈ A := by
        rcases List.mem_cons.mp ha with rfl | h
        · exact absurd rfl hxa
        · exact h
      obtain ⟨h1, h2, h3⟩ := ih (acc.2, acc.2 + lookupD p x)
        (fun y hy => hnn y (List.mem_cons_of_mem x hy)) ha' hapos
      have h1' : acc.2 + lookupD p x ≤ (cdfGo p a A (acc.2, acc.2 + lookupD p x)).1 := h1
      have h3' : (cdfGo p a A (acc.2, acc.2 + lookupD p x)).2 ≤
          acc.2 + lookupD p x + (List.map (lookupD p) A).sum := h3
      refine ⟨by linarith, h2, ?_⟩
      rw [List.map_cons, List.sum_cons]
      linarith

/-- The cumulative interval of an alphabet symbol, under a well-formed
distribution: `0 ≤ F_lo < F_hi ≤ 1`. -/
lemma cdf_interval_bounds {p : Dist} {a : Char}
    (hnd : (p.map Prod.fst).Nodup) (hpos : ∀ q ∈ p, 0 < q.2)
    (hsum : (p.map Prod.snd).sum = 1) (ha : a ∈ p.map Prod.fst) :
    0 ≤ (cdf_interval p a).1 ∧ (cdf_interval p a).1 < (cdf_interval p a).2 ∧
      (cdf_interval p a).2 ≤ 1 := by
  have hnn : ∀ x ∈ sortedKeys p, 0 ≤ lookupD p x := by
    intro x hx
    exact (lookupD_pos p x hpos (mem_sortedKeys.mp hx)).le
  have hmem : a ∈ sortedKeys p := mem_sortedKeys.mpr ha
  have hapos : 0 < lookupD p a := lookupD_pos p a hpos ha
  obtain ⟨h1, h2, h3⟩ := cdfGo_bounds (sortedKeys p) (0, 0) hnn hmem hapos
  refine ⟨by simpa using h1, h2, ?_⟩
  rw [sum_lookupD_sortedKeys hnd, hsum] at h3
  simpa using h3

/-- With the requested symbol absent, the scan runs to the end and `F_hi`
accumulates the whole mass. -/
lemma cdfGo_snd_not_mem {p : Dist} {a : Char} :
    ∀ (A : List Char) (acc : ℚ × ℚ), a ∉ A →
      (cdfGo p a A acc).2 = acc.2 + (A.map (lookupD p)).sum := by
  intro A
  induction A with
  | nil => intro acc _; simp [cdfGo_nil_eq]
  | cons x A ih =>
    intro acc ha
    have hxa : x ≠ a := fun h => ha (h ▸ List.mem_cons_self x A)
    rw [cdfGo_cons_eq, if_neg hxa]
    rw [ih _ (fun h => ha (List.mem_cons_of_mem x h))]
    rw [List.map_cons, List.sum_cons]
    show acc.2 + lookupD p x + (List.map (lookupD p) A).sum =
      acc.2 + (lookupD p x + (List.map (lookupD p) A).sum)
    ring

/-- With the requested symbol absent, the scan behaves exactly as if the last
key of the (duplicate-free) list had been requested. -/
lemma cdfGo_eq_getLast {p : Dist} {a b : Char} :
    ∀ (A : List Char) (acc : ℚ × ℚ), A.Nodup → A.getLast? = some b → a ∉ A →
      cdfGo p a A acc = cdfGo p b A acc := by
  intro A
  induction A with
  | nil => intro acc _ hb _; cases hb
  | cons x A ih =>
    intro acc hnd hb ha
    have hxa : x ≠ a := fun h => ha (h ▸ List.mem_cons_self x A)
    cases A with
    | nil =>
      have hbx : b = x := by
        rw [List.getLast?_singleton] at hb
        exact (Option.some_injective _ hb).symm
      subst hbx
      rw [cdfGo_cons_eq, cdfGo_cons_eq, if_neg hxa, if_pos rfl, cdfGo_nil_eq]
    | cons y A' =>
      have hb' : (y :: A').getLast? = some b := by
        rw [List.getLast?_cons_cons] at hb
        exact hb
      have hbmem : b ∈ y :: A' := by
        obtain ⟨hne, hbl⟩ := List.mem_getLast?_eq_getLast (Option.mem_def.mpr hb')
        exact hbl ▸ List.getLast_mem hne
      have hxb : x ≠ b := by
        rw [List.nodup_cons] at hnd
        intro h
        exact hnd.1 (h ▸ hbmem)
      rw [cdfGo_cons_eq p a x, cdfGo_cons_eq p b x, if_neg hxa, if_neg hxb]
      rw [List.nodup_cons] at hnd
      exact ih _ hnd.2 hb' (fun h => ha (List.mem_cons_of_mem x h))

/-! ### The Dirichlet model -/

lemma incr_keys (c : List (Char × ℕ)) (x : Char) :
    (incr c x).map Prod.fst = c.map Prod.fst := by
  unfold incr
  rw [List.map_map]
  apply List.map_congr_left
  intro q _
  by_cases h : q.1 = x <;> simp [h]

lemma foldl_incr_keys :
    ∀ (xs : List Char) (m : List (Char × ℕ)),
      ((xs.foldl incr m).map Prod.fst) = m.map Prod.fst := by
  intro xs
  induction xs with
  | nil => intro m; rfl
  | cons x xs ih => intro m; rw [List.foldl_cons, ih, incr_keys]

lemma incr_pos {c : List (Char × ℕ)} {x : Char} (h : ∀ q ∈ c, 0 < q.2) :
    ∀ q ∈ incr c x, 0 < q.2 := by
  intro q hq
  rcases List.mem_map.mp hq with ⟨q', hq', rfl⟩
  by_cases hx : q'.1 = x
  · simp [hx]
  · simpa [hx] using h q' hq'

lemma foldl_incr_pos :
    ∀ (xs : List Char) (m : List (Char × ℕ)), (∀ q ∈ m, 0 < q.2) →
      ∀ q ∈ xs.foldl incr m, 0 < q.2 := by
  intro xs
  induction xs with
  | nil => intro m hm; exact hm
  | cons x xs ih => intro m hm; exact ih (incr m x) (incr_pos hm)

lemma dirichlet_keys (m : List (Char × ℕ)) (xs : List Char) :
    (dirichlet m xs).map Prod.fst = m.map Prod.fst := by
  unfold dirichlet
  rw [List.map_map]
  exact (List.map_congr_left fun q _ => rfl).trans (foldl_incr_keys xs m)

lemma dirichlet_total_pos (m : List (Char × ℕ)) (xs : List Char)
    (hpos : ∀ q ∈ m, 0 < q.2) (hne : m ≠ []) :
    0 < ((xs.foldl incr m).map Prod.snd).sum := by
  have hkeys := foldl_incr_keys xs m
  have hcne : xs.foldl incr m ≠ [] := by
    intro h
    apply hne
    have hlen := congrArg List.length hkeys
    rw [h] at hlen
    simp only [List.map_nil, List.length_nil, List.length_map] at hlen
    exact List.eq_nil_of_length_eq_zero hlen.symm
  obtain ⟨q, hq⟩ := List.exists_mem_of_ne_nil _ hcne
  have hqpos : 0 < q.2 := foldl_incr_pos xs m hpos q hq
  have hle : q.2 ≤ ((xs.foldl incr m).map Prod.snd).sum :=
    List.single_le_sum (fun b _ => Nat.zero_le b) _ (List.mem_map_of_mem Prod.snd hq)
  omega

lemma dirichlet_pos (m : List (Char × ℕ)) (xs : List Char)
    (hpos : ∀ q ∈ m, 0 < q.2) (hne : m ≠ []) :
    ∀ q ∈ dirichlet m xs, 0 < q.2 := by
  intro q hq
  unfold dirichlet at hq
  rcases List.mem_map.mp hq with ⟨c, hc, rfl⟩
  have hT := dirichlet_total_pos m xs hpos hne
  have hcpos : 0 < c.2 := foldl_incr_pos xs m hpos c hc
  exact div_pos (by exact_mod_cast hcpos) (by exact_mod_cast hT)

lemma dirichlet_sum (m : List (Char × ℕ)) (xs : List Char)
    (hpos : ∀ q ∈ m, 0 < q.2) (hne : m ≠ []) :
    ((dirichlet m xs).map Prod.snd).sum = 1 := by
  unfold dirichlet
  rw [List.map_map]
  have hrw : (Prod.snd ∘ fun q : Char × ℕ =>
      (q.1, (q.2 : ℚ) / (((xs.foldl incr m).map Prod.snd).sum : ℚ))) =
      fun q : Char × ℕ =>
        (q.2 : ℚ) * ((((xs.foldl incr m).map Prod.snd).sum : ℚ))⁻¹ := by
    funext q
    simp [div_eq_mul_inv]
  rw [hrw, List.sum_map_mul_right]
  have hcast : ((xs.foldl incr m).map fun q : Char × ℕ => (q.2 : ℚ)).sum =
      ((((xs.foldl incr m).map Prod.snd).sum : ℕ) : ℚ) := by
    rw [Nat.cast_list_sum, List.map_map]
    rfl
  rw [hcast]
  have hT := dirichlet_total_pos m xs hpos hne
  rw [mul_inv_cancel₀]
  exact_mod_cast hT.ne'

/-! ### The encoder loop -/

lemma encodeGo_nil (fuel : ℕ) (G : List Char → Dist) (u v : ℚ)
    (xs : List Char) (bs : List Bool) (p : Dist) :
    encodeGo fuel G [] u v xs bs p = some (u, v, xs, bs) := rfl

lemma encodeGo_cons (fuel : ℕ) (G : List Char → Dist) (x : Char)
    (stream : List Char) (u v : ℚ) (xs : List Char) (bs : List Bool) (p : Dist) :
    encodeGo fuel G (x :: stream) u v xs bs p =
      match extend_around fuel bs (u + (v - u) * (cdf_interval p x).1)
          (u + (v - u) * (cdf_interval p x).2) with
      | none => none
      | some bs' =>
        encodeGo fuel G stream (u + (v - u) * (cdf_interval p x).1)
          (u + (v - u) * (cdf_interval p x).2) (xs ++ [x]) bs' (G (xs ++ [x])) := rfl

lemma encodeGo_mono {G : List Char → Dist} :
    ∀ (stream : List Char) (f f' : ℕ) (u v : ℚ) (xs : List Char) (bs : List Bool)
      (p : Dist) (res : ℚ × ℚ × List Char × List Bool), f ≤ f' →
      encodeGo f G stream u v xs bs p = some res →
      encodeGo f' G stream u v xs bs p = some res := by
  intro stream
  induction stream with
  | nil => intro f f' u v xs bs p res _ h; exact h
  | cons x stream ih =>
    intro f f' u v xs bs p res hle h
    rw [encodeGo_cons] at h ⊢
    cases hEA : extend_around f bs (u + (v - u) * (cdf_interval p x).1)
        (u + (v - u) * (cdf_interval p x).2) with
    | none => rw [hEA] at h; cases h
    | some bs' =>
      rw [hEA] at h
      rw [extend_around_mono f f' bs _ _ bs' hle hEA]
      exact ih f f' _ _ _ _ _ res hle h

lemma encode_eq (fuel : ℕ) (G : List Char → Dist) (stream : List Char) :
    encode fuel G stream =
      match encodeGo fuel G stream 0 1 [] [] (G []) with
      | none => none
      | some (u, v, _, bs) => extend_inside fuel bs (u + (v - u) / 2) v := rfl

lemma encode_mono {G : List Char → Dist} {stream : List Char} {f f' : ℕ}
    {r : List Bool} (hle : f ≤ f') (h : encode f G stream = some r) :
    encode f' G stream = some r := by
  rw [encode_eq] at h ⊢
  cases hGo : encodeGo f G stream 0 1 [] [] (G []) with
  | none => rw [hGo] at h; cases h
  | some res =>
    rw [hGo] at h
    rw [encodeGo_mono stream f f' 0 1 [] [] (G []) res hle hGo]
    obtain ⟨u, v, xs, bs⟩ := res
    exact extend_inside_mono f f' bs _ _ r hle h

/-- Whatever fuel two successful runs use, they agree. -/
lemma encode_eq_of_some {G : List Char → Dist} {stream : List Char}
    {f₁ f₂ : ℕ} {r₁ r₂ : List Bool} (h₁ : encode f₁ G stream = some r₁)
    (h₂ : encode f₂ G stream = some r₂) : r₁ = r₂ := by
  rcases le_total f₁ f₂ with hle | hle
  · have := encode_mono hle h₁
    rw [this] at h₂
    exact Option.some_injective _ h₂
  · have := encode_mono hle h₂
    rw [this] at h₁
    exact (Option.some_injective _ h₁).symm

/-- The encoder loop invariant: if the model always returns a well-formed
distribution over the fixed alphabet `A`, the stream stays inside `A`, and the
entry state satisfies `around bs u v` with `u < v`, then a successful run ends
in a state that again satisfies `around` with a non-empty interval. -/
lemma encodeGo_around {G : List Char → Dist} {A : List Char}
    (halpha : ∀ ys, (G ys).map Prod.fst = A) (hnd : A.Nodup)
    (hpos : ∀ ys, ∀ q ∈ G ys, 0 < q.2)
    (hsum : ∀ ys, ((G ys).map Prod.snd).sum = 1) (fuel : ℕ) :
    ∀ (stream : List Char) (u v : ℚ) (xs : List Char) (bs : List Bool)
      (res : ℚ × ℚ × List Char × List Bool),
      (∀ x ∈ stream, x ∈ A) → around bs u v → u < v →
      encodeGo fuel G stream u v xs bs (G xs) = some res →
      around res.2.2.2 res.1 res.2.1 ∧ res.1 < res.2.1 := by
  intro stream
  induction stream with
  | nil =>
    intro u v xs bs res _ har huv h
    rw [encodeGo_nil] at h
    injection h with h'
    subst h'
    exact ⟨har, huv⟩
  | cons x stream ih =>
    intro u v xs bs res hstr har huv h
    rw [encodeGo_cons] at h
    have hndp : ((G xs).map Prod.fst).Nodup := by rw [halpha xs]; exact hnd
    have hxp : x ∈ (G xs).map Prod.fst := by
      rw [halpha xs]; exact hstr x (List.mem_cons_self x stream)
    obtain ⟨hlo, hlohi, hhi⟩ :=
      cdf_interval_bounds (p := G xs) (a := x) hndp (hpos xs) (hsum xs) hxp
    have hvu : (0 : ℚ) < v - u := by linarith
    have hu : u ≤ u + (v - u) * (cdf_interval (G xs) x).1 := by nlinarith
    have hv : u + (v - u) * (cdf_interval (G xs) x).2 ≤ v := by nlinarith
    have huv' : u + (v - u) * (cdf_interval (G xs) x).1 <
        u + (v - u) * (cdf_interval (G xs) x).2 := by nlinarith
    have har' : around bs (u + (v - u) * (cdf_interval (G xs) x).1)
        (u + (v - u) * (cdf_interval (G xs) x).2) := around_shrink har hu hv
    cases hEA : extend_around fuel bs (u + (v - u) * (cdf_interval (G xs) x).1)
        (u + (v - u) * (cdf_interval (G xs) x).2) with
    | none => rw [hEA] at h; cases h
    | some bs' =>
      rw [hEA] at h
      have har'' := extend_around_around fuel bs _ _ bs' har' hEA
      exact ih _ _ (xs ++ [x]) bs' res
        (fun y hy => hstr y (List.mem_cons_of_mem x hy)) har'' huv' h

/-- Finalizing from the initial state: `extend_inside("", 0.5, 1)` emits the
single bit `1`. -/
lemma extend_inside_half (f : ℕ) :
    extend_inside (f + 2) [] ((0 : ℚ) + (1 - 0) / 2) 1 = some [true] := by
  have e0 : ((0 : ℚ) + (1 - 0) / 2) = 1 / 2 := by norm_num
  rw [e0]
  have h1 : ¬ inside ([] : List Bool) (1 / 2 : ℚ) 1 := by
    rw [inside_iff]
    rintro ⟨h, -⟩
    norm_num [bitsVal] at h
  have hc : (bitsVal ([] : List Bool) : ℚ) + 1 -
        1 * 2 ^ ([] : List Bool).length <
      (1 / 2 : ℚ) * 2 ^ ([] : List Bool).length - bitsVal ([] : List Bool) := by
    norm_num [bitsVal]
  rw [extend_inside_step_one (f + 1) [] (1 / 2) 1 h1 hc]
  have h2 : inside (([] : List Bool) ++ [true]) (1 / 2 : ℚ) 1 := by
    rw [inside_iff]
    norm_num [bitsVal]
  rw [extend_inside_succ, if_pos h2]
  rfl

/-! ### Claims -/

/-- C1: Encoding the stream "aabbaacc" with the model dirichlet({a:1, b:1, c:1})
returns exactly the bit string "00011110011110010" (under the exact-arithmetic
semantics mandated by the specification; any sufficient fuel gives the same
answer). -/
theorem C1_golden_regression (f : ℕ) (hf : 20 ≤ f) :
    encode f (dirichlet [('a', 1), ('b', 1), ('c', 1)])
        ['a', 'a', 'b', 'b', 'a', 'a', 'c', 'c'] =
      some [false, false, false, true, true, true, true, false, false, true,
        true, true, true, false, false, true, false] :=
  encode_mono hf (by with_unfolding_all decide)

theorem C1_golden_regression_witness :
    20 ≤ 20 ∧
      encode 20 (dirichlet [('a', 1), ('b', 1), ('c', 1)])
          ['a', 'a', 'b', 'b', 'a', 'a', 'c', 'c'] =
        some [false, false, false, true, true, true, true, false, false, true,
          true, true, true, false, false, true, false] :=
  ⟨le_refl 20, C1_golden_regression 20 (le_refl 20)⟩

/-- C2, counterexample: as stated the claim is false.  For the bit string "0"
and the target interval `[3/4, 1)` (whose width `v - u = 1/4` is positive),
`extend_inside` never terminates: it appends `1` forever, so no fuel bound ever
returns a result. -/
theorem C2_counterexample :
    (0 : ℚ) < 1 - 3 / 4 ∧
      ¬ ∃ (f : ℕ) (r : List Bool),
          extend_inside f [false] (3 / 4 : ℚ) 1 = some r := by
  refine ⟨by norm_num, ?_⟩
  rintro ⟨f, r, hr⟩
  have h0 := extend_inside_diverges f 0
  rw [List.replicate_zero] at h0
  rw [h0] at hr
  cases hr

/-- C2, amended: for every bit string `bs` and target `[u, v)` with `v - u > 0`
such that the dyadic interval of `bs` overlaps the target
(`u < (n+1)/d` and `n/d < v` — in particular whenever `around bs u v` holds,
which is the encoder's usage), `extend_inside` terminates after finitely many
appended bits and returns an extension of `bs` satisfying `inside`. -/
theorem C2_amended (bs : List Bool) (u v : ℚ) (huv : 0 < v - u)
    (hov₁ : u * (2 : ℚ) ^ bs.length < (bitsVal bs : ℚ) + 1)
    (hov₂ : (bitsVal bs : ℚ) < v * 2 ^ bs.length) :
    ∃ (f : ℕ) (r : List Bool),
      extend_inside f bs u v = some r ∧ bs <+: r ∧ inside r u v := by
  obtain ⟨N, hN⟩ := one_lt_pow_mul (mul_pos huv (two_pow_pos bs.length))
  have hbig : 1 ≤ (v - u) * 2 ^ bs.length * 2 ^ N := by
    rw [← mul_assoc] at hN
    linarith
  obtain ⟨f, r, hr⟩ := extend_inside_term N bs u v huv hov₁ hov₂ hbig
  exact ⟨f, r, hr, extend_inside_extends f bs u v r hr,
    extend_inside_inside f bs u v r hr⟩

theorem C2_amended_witness :
    ∃ (f : ℕ) (r : List Bool),
      extend_inside f [] (1 / 2 : ℚ) 1 = some r ∧ ([] : List Bool) <+: r ∧
        inside r (1 / 2 : ℚ) 1 :=
  C2_amended [] (1 / 2) 1 (by norm_num) (by norm_num [bitsVal])
    (by norm_num [bitsVal])

/-- C3: during encode, with a model returning positive distributions summing
to 1 over a fixed alphabet and a stream over that alphabet, every successful
run of the per-symbol loop from a state satisfying `around bs u v` (as the
initial state `bs = ""`, `[u,v) = [0,1)` does) ends with `around bs' u' v'`
holding again — so `around` holds after each per-symbol update
`bs = extend_around(bs, u, v)`, every such update being the last one of the
run on the corresponding prefix stream. -/
theorem C3_code_surrounds_interval {G : List Char → Dist} {A : List Char}
    (halpha : ∀ ys, (G ys).map Prod.fst = A) (hnd : A.Nodup)
    (hpos : ∀ ys, ∀ q ∈ G ys, 0 < q.2)
    (hsum : ∀ ys, ((G ys).map Prod.snd).sum = 1)
    (fuel : ℕ) (stream : List Char) (u v : ℚ) (xs : List Char) (bs : List Bool)
    (res : ℚ × ℚ × List Char × List Bool)
    (hstream : ∀ x ∈ stream, x ∈ A) (hbs : around bs u v) (huv : u < v)
    (h : encodeGo fuel G stream u v xs bs (G xs) = some res) :
    around res.2.2.2 res.1 res.2.1 ∧ res.1 < res.2.1 :=
  encodeGo_around halpha hnd hpos hsum fuel stream u v xs bs res hstream hbs huv h

theorem C3_code_surrounds_interval_witness :
    around [] (0 : ℚ) 1 ∧ (0 : ℚ) < 1 :=
  C3_code_surrounds_interval
    (G := dirichlet [('a', 1)]) (A := ['a'])
    (fun ys => dirichlet_keys [('a', 1)] ys)
    (by decide)
    (fun ys => dirichlet_pos [('a', 1)] ys (by decide) (by decide))
    (fun ys => dirichlet_sum [('a', 1)] ys (by decide) (by decide))
    4 ['a'] 0 1 [] [] (0, 1, ['a'], [])
    (by decide) (by with_unfolding_all decide) (by norm_num)
    (by with_unfolding_all decide)

/-- C4: for a symbol of a well-formed distribution (positive probabilities
summing to exactly 1, duplicate-free keys), the per-symbol interval update
`u, v = u + (v-u)*F_lo, u + (v-u)*F_hi` yields a sub-interval of the previous
one: it never widens and never becomes empty. -/
theorem C4_monotone_narrowing (p : Dist) (x : Char) (u v : ℚ)
    (hnd : (p.map Prod.fst).Nodup) (hpos : ∀ q ∈ p, 0 < q.2)
    (hsum : (p.map Prod.snd).sum = 1) (hx : x ∈ p.map Prod.fst) (huv : u < v) :
    u ≤ u + (v - u) * (cdf_interval p x).1 ∧
      u + (v - u) * (cdf_interval p x).2 ≤ v ∧
      u + (v - u) * (cdf_interval p x).1 < u + (v - u) * (cdf_interval p x).2 := by
  obtain ⟨hlo, hlohi, hhi⟩ := cdf_interval_bounds hnd hpos hsum hx
  refine ⟨by nlinarith, by nlinarith, by nlinarith⟩

theorem C4_monotone_narrowing_witness :
    (0 : ℚ) ≤ 0 + (1 - 0) * (cdf_interval [('a', 1/2), ('b', 1/2)] 'a').1 ∧
      0 + (1 - 0) * (cdf_interval [('a', 1/2), ('b', 1/2)] 'a').2 ≤ 1 ∧
      0 + (1 - 0) * (cdf_interval [('a', 1/2), ('b', 1/2)] 'a').1 <
        0 + (1 - 0) * (cdf_interval [('a', 1/2), ('b', 1/2)] 'a').2 :=
  C4_monotone_narrowing [('a', 1/2), ('b', 1/2)] 'a' 0 1
    (by decide) (by with_unfolding_all decide) (by with_unfolding_all decide)
    (by decide) (by norm_num)

/-- C5: for every model, encoding the empty stream finalizes directly on the
upper half of the initial interval `[0, 1)` and returns a code (namely "1")
whose dyadic interval lies inside `[1/2, 1)`. -/
theorem C5_empty_stream (G : List Char → Dist) (f : ℕ) :
    ∃ bs : List Bool, encode (f + 2) G [] = some bs ∧ inside bs (1 / 2 : ℚ) 1 := by
  refine ⟨[true], ?_, ?_⟩
  · have e : encode (f + 2) G [] =
        extend_inside (f + 2) [] ((0 : ℚ) + (1 - 0) / 2) 1 := rfl
    rw [e, extend_inside_half f]
  · rw [inside_iff]
    norm_num [bitsVal]

/-- C6, counterexample: with prior counts `{a:1}` and stream "aaaa", encode
does *not* return the empty bit sequence — finalization emits one bit. -/
theorem C6_counterexample :
    ¬ ∃ f : ℕ, encode f (dirichlet [('a', 1)]) ['a', 'a', 'a', 'a'] = some [] := by
  rintro ⟨f, hf⟩
  have h8 : encode 8 (dirichlet [('a', 1)]) ['a', 'a', 'a', 'a'] = some [true] := by
    with_unfolding_all decide
  exact List.noConfusion (encode_eq_of_some hf h8)

/-- C6, amended: with the single-symbol prior `{a:1}` and stream "aaaa" the
message interval stays `[0, 1)` (every probability is 1) and encode returns
the single-bit sequence "1" produced by finalization. -/
theorem C6_amended (f : ℕ) :
    encode (f + 2) (dirichlet [('a', 1)]) ['a', 'a', 'a', 'a'] = some [true] :=
  encode_mono (by omega : 2 ≤ f + 2) (by with_unfolding_all decide)

/-- C7, counterexample: the empty prior-count map vacuously has all-positive
counts and the empty history lies over its alphabet, yet the returned
distribution is empty and its values sum to 0, not 1 (the Python dict
comprehension over zero items returns `{}` without ever dividing). -/
theorem C7_counterexample :
    (∀ q ∈ ([] : List (Char × ℕ)), 0 < q.2) ∧
      ((dirichlet [] []).map Prod.snd).sum ≠ 1 := by
  refine ⟨fun q hq => absurd hq (List.not_mem_nil q), ?_⟩
  with_unfolding_all decide

/-- C7, amended: for every *non-empty* prior-count map with positive counts
and every history over its alphabet, `dirichlet` assigns a strictly positive
probability to every symbol of the alphabet, and the probabilities sum to
exactly 1. -/
theorem C7_amended (m : List (Char × ℕ)) (xs : List Char)
    (hpos : ∀ q ∈ m, 0 < q.2) (hne : m ≠ [])
    (_hxs : ∀ x ∈ xs, x ∈ m.map Prod.fst) :
    (∀ a ∈ m.map Prod.fst, 0 < lookupD (dirichlet m xs) a) ∧
      ((dirichlet m xs).map Prod.snd).sum = 1 := by
  refine ⟨fun a ha => ?_, dirichlet_sum m xs hpos hne⟩
  refine lookupD_pos _ a (dirichlet_pos m xs hpos hne) ?_
  rw [dirichlet_keys]
  exact ha

theorem C7_amended_witness :
    (∀ a ∈ ([('a', 1)] : List (Char × ℕ)).map Prod.fst,
        0 < lookupD (dirichlet [('a', 1)] []) a) ∧
      ((dirichlet [('a', 1)] []).map Prod.snd).sum = 1 :=
  C7_amended [('a', 1)] [] (by decide) (by decide) (by decide)

/-- C8: `extend_around` never removes existing bits (whenever it returns, the
input is an initial segment of the output); and whenever `u < v` and
`around(bs, u, v)` holds, it terminates for sufficient fuel, its result again
satisfies `around`, and the result is the longest extension of `bs` satisfying
`around` — every `around`-satisfying extension is an initial segment of it
(for `u < v`, at most one of the two one-bit extensions can satisfy `around`,
so the 0-before-1 tie-break never discards a longer extension). -/
theorem C8_extend_around_spec (bs : List Bool) (u v : ℚ) :
    (∀ (f : ℕ) (r : List Bool), extend_around f bs u v = some r → bs <+: r) ∧
      (u < v → around bs u v →
        (∃ (f : ℕ) (r : List Bool), extend_around f bs u v = some r) ∧
          ∀ (f : ℕ) (r : List Bool), extend_around f bs u v = some r →
            around r u v ∧
              ∀ ext, bs <+: ext → around ext u v → ext <+: r) := by
  refine ⟨fun f r h => extend_around_extends f bs u v r h, fun huv hbs => ⟨?_, ?_⟩⟩
  · obtain ⟨N, hN⟩ := one_lt_pow_mul
      (mul_pos (by linarith : (0 : ℚ) < v - u) (two_pow_pos bs.length))
    rw [← mul_assoc] at hN
    obtain ⟨r, hr⟩ := extend_around_term N bs u v huv hN
    exact ⟨N + 1, r, hr⟩
  · intro f r h
    exact ⟨extend_around_around f bs u v r hbs h,
      extend_around_longest f bs u v r huv h⟩

theorem C8_extend_around_spec_witness :
    (0 : ℚ) < 1 ∧ around [] (0 : ℚ) 1 ∧
      ∃ (f : ℕ) (r : List Bool), extend_around f [] (0 : ℚ) 1 = some r :=
  ⟨by norm_num, by with_unfolding_all decide,
    ((C8_extend_around_spec [] 0 1).2 (by norm_num)
      (by with_unfolding_all decide)).1⟩

/-- C9: encode is deterministic — two successful runs with equal prior-count
maps and equal input streams return identical bit strings (whatever fuel each
run was given). -/
theorem C9_determinism (m₁ m₂ : List (Char × ℕ)) (s₁ s₂ : List Char)
    (f₁ f₂ : ℕ) (r₁ r₂ : List Bool) (hm : m₁ = m₂) (hs : s₁ = s₂)
    (h₁ : encode f₁ (dirichlet m₁) s₁ = some r₁)
    (h₂ : encode f₂ (dirichlet m₂) s₂ = some r₂) : r₁ = r₂ := by
  subst hm
  subst hs
  exact encode_eq_of_some h₁ h₂

theorem C9_determinism_witness :
    encode 4 (dirichlet [('a', 1)]) ['a'] = some [true] ∧
      ([true] : List Bool) = [true] :=
  ⟨by with_unfolding_all decide,
    C9_determinism [('a', 1)] [('a', 1)] ['a'] ['a'] 4 5 [true] [true] rfl rfl
      (by with_unfolding_all decide) (by with_unfolding_all decide)⟩

/-- C10: calling `cdf_interval` with a non-empty distribution and a symbol
that is not one of its keys raises no error: the loop scans the whole sorted
alphabet without breaking, `F_hi` ends up equal to the sum of all
probabilities, and the returned pair is exactly the one the last symbol in
sorted order would get. -/
theorem C10_cdf_unknown_symbol (p : Dist) (a : Char)
    (hnd : (p.map Prod.fst).Nodup) (hne : p ≠ [])
    (ha : a ∉ p.map Prod.fst) :
    (cdf_interval p a).2 = (p.map Prod.snd).sum ∧
      ∃ b, (sortedKeys p).getLast? = some b ∧
        cdf_interval p a = cdf_interval p b := by
  have hamem : a ∉ sortedKeys p := fun h => ha (mem_sortedKeys.mp h)
  constructor
  · have h := cdfGo_snd_not_mem (p := p) (a := a) (sortedKeys p) (0, 0) hamem
    rw [sum_lookupD_sortedKeys hnd] at h
    simpa [cdf_interval] using h
  · have hkne : sortedKeys p ≠ [] := by
      intro h
      apply hne
      have hlen := (sortedKeys_perm p).length_eq
      rw [h] at hlen
      simp only [List.length_nil, List.length_map] at hlen
      exact List.eq_nil_of_length_eq_zero hlen.symm
    refine ⟨(sortedKeys p).getLast hkne, List.getLast?_eq_getLast _ hkne, ?_⟩
    unfold cdf_interval
    exact cdfGo_eq_getLast (sortedKeys p) (0, 0) (sortedKeys_nodup hnd)
      (List.getLast?_eq_getLast _ hkne) hamem

theorem C10_cdf_unknown_symbol_witness :
    (cdf_interval [('a', 1/2), ('b', 1/2)] 'z').2 =
        (([('a', 1/2), ('b', 1/2)] : Dist).map Prod.snd).sum ∧
      ∃ b, (sortedKeys [('a', 1/2), ('b', 1/2)]).getLast? = some b ∧
        cdf_interval [('a', 1/2), ('b', 1/2)] 'z' =
          cdf_interval [('a', 1/2), ('b', 1/2)] b :=
  C10_cdf_unknown_symbol [('a', 1/2), ('b', 1/2)] 'z'
    (by decide) (by decide) (by decide)

end CALIC
